import Mathlib

/-
Verification development for the batch-learning paraphraser repository
(source files para.py and hayi.py, both defining class BatchLearningParaphraser).

The in-memory knowledge store self.synonyms is a Python dict mapping a word
to a list of synonym strings.  Python dicts are insertion-ordered maps with
unique keys; we embed them as association lists (List (String × List String))
with first-match lookup and first-occurrence update.

Randomness (random.random(), random.choice) is embedded as explicit oracle
streams passed to the functions: a Bool stream for the `random.random() < 0.3`
gate in para.py and a Nat stream of chosen indices (used modulo the candidate
count) for random.choice in both files.

String functions .lower()/.isalpha()/.strip()/str.split are embedded with
their ASCII semantics, which is the fragment exercised by the repository.
-/

set_option maxRecDepth 4000

/-- Python dict of lists, as used for self.synonyms and
self.newly_added_synonyms in both source files. -/
abbrev SynMap := List (String × List String)

/-- Embeds Python `word in d` / `d[word]` read access: first-match lookup. -/
def lookupKey (m : SynMap) (k : String) : Option (List String) :=
  match m with
  | [] => none
  | (k1, v) :: rest => if k1 = k then some v else lookupKey rest k

/-- Embeds Python `d[word] = v`: update the existing binding in place, or
append a fresh binding at the end (dict insertion order). -/
def setKey (m : SynMap) (k : String) (v : List String) : SynMap :=
  match m with
  | [] => [(k, v)]
  | (k1, v1) :: rest => if k1 = k then (k, v) :: rest else (k1, v1) :: setKey rest k v

/-- Embeds Python str.lower() on one character (ASCII range, the fragment
the repository exercises). -/
def lowerChar (c : Char) : Char :=
  if 65 ≤ c.toNat ∧ c.toNat ≤ 90 then Char.ofNat (c.toNat + 32) else c

/-- Embeds Python str.lower(). -/
def lowerString (s : String) : String := String.mk (s.data.map lowerChar)

/-- para.py lines 106-120, BatchLearningParaphraser._add_synonym:
ensure the key exists, then append the synonym if it is not already present.
This variant adds only the word -> synonym direction. -/
def addSynonymPara (m : SynMap) (word synonym : String) : SynMap :=
  let m1 := match lookupKey m word with
    | some _ => m
    | none => setKey m word []
  let cur := (lookupKey m1 word).getD []
  if synonym ∈ cur then m1 else setKey m1 word (cur ++ [synonym])

/-- hayi.py lines 106-115 (and symmetrically 117-125): one direction of
BatchLearningParaphraser._add_synonym, updating self.synonyms and, when a
new entry is appended, self.newly_added_synonyms (the delta). -/
def addDir (m d : SynMap) (word synonym : String) : SynMap × SynMap :=
  let m1 := match lookupKey m word with
    | some _ => m
    | none => setKey m word []
  let cur := (lookupKey m1 word).getD []
  if synonym ∈ cur then (m1, d)
  else
    let m2 := setKey m1 word (cur ++ [synonym])
    let d1 := match lookupKey d word with
      | some _ => d
      | none => setKey d word []
    let dcur := (lookupKey d1 word).getD []
    (m2, setKey d1 word (dcur ++ [synonym]))

/-- The mutable state of hayi.py's BatchLearningParaphraser that
_add_synonym touches: self.synonyms and self.newly_added_synonyms. -/
structure HayiStore where
  synonyms : SynMap
  delta : SynMap
deriving DecidableEq, Repr

/-- hayi.py lines 106-125, BatchLearningParaphraser._add_synonym:
first block adds word -> synonym, second block adds synonym -> word. -/
def addSynonymHayi (st : HayiStore) (word synonym : String) : HayiStore :=
  let p1 := addDir st.synonyms st.delta word synonym
  let p2 := addDir p1.1 p1.2 synonym word
  ⟨p2.1, p2.2⟩

/-- Spec section 3 invariant on the SynonymMap: no word maps to a list
containing itself. -/
def noSelf (m : SynMap) : Prop := ∀ k, k ∉ (lookupKey m k).getD []

theorem lookupKey_setKey_self (m : SynMap) (k : String) (v : List String) :
    lookupKey (setKey m k v) k = some v := by
  induction m with
  | nil => simp [setKey, lookupKey]
  | cons p rest ih =>
    obtain ⟨k1, v1⟩ := p
    by_cases h : k1 = k
    · simp [setKey, lookupKey, h]
    · simp [setKey, lookupKey, h, ih]

theorem lookupKey_setKey_ne (m : SynMap) (k k2 : String) (v : List String)
    (h : k2 ≠ k) : lookupKey (setKey m k v) k2 = lookupKey m k2 := by
  induction m with
  | nil =>
    simp only [setKey, lookupKey]
    rw [if_neg (fun h1 => h (Eq.symm h1))]
  | cons p rest ih =>
    obtain ⟨k1, v1⟩ := p
    by_cases h1 : k1 = k
    · subst h1
      simp only [setKey, if_pos rfl, lookupKey]
      rw [if_neg (fun h2 => h (Eq.symm h2)), if_neg (fun h2 => h (Eq.symm h2))]
    · simp only [setKey, if_neg h1, lookupKey]
      by_cases h2 : k1 = k2
      · rw [if_pos h2, if_pos h2]
      · rw [if_neg h2, if_neg h2, ih]

theorem foldl_inv {α : Type} {β : Type} (f : α → β → α) (P : α → Prop)
    (l : List β) (a : α) (h0 : P a) (hstep : ∀ x b, P x → b ∈ l → P (f x b)) :
    P (l.foldl f a) := by
  induction l generalizing a with
  | nil => exact h0
  | cons b bs ih =>
    exact ih (f a b) (hstep a b h0 (by simp))
      (fun x c hx hc => hstep x c hx (by simp [hc]))

theorem mem_lookup_addPara (m : SynMap) (w s : String) :
    ∃ l, lookupKey (addSynonymPara m w s) w = some l ∧ s ∈ l := by
  cases hm : lookupKey m w with
  | none =>
    refine ⟨[s], ?_, by simp⟩
    simp only [addSynonymPara, hm, lookupKey_setKey_self, Option.getD_some,
      List.not_mem_nil, if_false, List.nil_append]
  | some l0 =>
    by_cases hs : s ∈ l0
    · exact ⟨l0, by simp only [addSynonymPara, hm, Option.getD_some, if_pos hs], hs⟩
    · refine ⟨l0 ++ [s], ?_, by simp⟩
      simp only [addSynonymPara, hm, Option.getD_some, if_neg hs]
      exact lookupKey_setKey_self _ _ _

theorem addPara_of_mem (m : SynMap) (w s : String) (l : List String)
    (hl : lookupKey m w = some l) (hs : s ∈ l) : addSynonymPara m w s = m := by
  simp only [addSynonymPara, hl, Option.getD_some, if_pos hs]

theorem addDir_of_mem (m d : SynMap) (w s : String) (l : List String)
    (hl : lookupKey m w = some l) (hs : s ∈ l) : addDir m d w s = (m, d) := by
  simp only [addDir, hl, Option.getD_some, if_pos hs]

theorem mem_lookup_addDir (m d : SynMap) (w s : String) :
    ∃ l, lookupKey (addDir m d w s).1 w = some l ∧ s ∈ l := by
  cases hm : lookupKey m w with
  | none =>
    refine ⟨[s], ?_, by simp⟩
    simp only [addDir, hm, lookupKey_setKey_self, Option.getD_some,
      List.not_mem_nil, if_false, List.nil_append]
  | some l0 =>
    by_cases hs : s ∈ l0
    · exact ⟨l0, by simp only [addDir, hm, Option.getD_some, if_pos hs], hs⟩
    · refine ⟨l0 ++ [s], ?_, by simp⟩
      simp only [addDir, hm, Option.getD_some, if_neg hs]
      exact lookupKey_setKey_self _ _ _

theorem lookup_addDir_mono (m d : SynMap) (a b k : String) (l : List String)
    (hl : lookupKey m k = some l) :
    ∃ l2, lookupKey (addDir m d a b).1 k = some l2 ∧ ∀ x ∈ l, x ∈ l2 := by
  by_cases hk : k = a
  · subst hk
    cases hm : lookupKey m k with
    | none => rw [hm] at hl; exact absurd hl (by simp)
    | some l0 =>
      rw [hm] at hl
      injection hl with hl
      subst hl
      by_cases hb : b ∈ l0
      · exact ⟨l0, by simp only [addDir, hm, Option.getD_some, if_pos hb],
          fun x hx => hx⟩
      · refine ⟨l0 ++ [b], ?_, fun x hx => by simp [hx]⟩
        simp only [addDir, hm, Option.getD_some, if_neg hb]
        exact lookupKey_setKey_self _ _ _
  · refine ⟨l, ?_, fun x hx => hx⟩
    cases hm : lookupKey m a with
    | none =>
      simp only [addDir, hm, lookupKey_setKey_self, Option.getD_some,
        List.not_mem_nil, if_false, List.nil_append]
      rw [lookupKey_setKey_ne _ _ _ _ hk, lookupKey_setKey_ne _ _ _ _ hk]
      exact hl
    | some l0 =>
      by_cases hb : b ∈ l0
      · simp only [addDir, hm, Option.getD_some, if_pos hb]
        exact hl
      · simp only [addDir, hm, Option.getD_some, if_neg hb]
        rw [lookupKey_setKey_ne _ _ _ _ hk]
        exact hl

theorem noSelf_addDir (m d : SynMap) (w s : String) (hws : w ≠ s) (hm : noSelf m) :
    noSelf (addDir m d w s).1 := by
  intro k
  by_cases hk : k = w
  · subst hk
    cases hm2 : lookupKey m k with
    | none =>
      simp only [addDir, hm2, lookupKey_setKey_self, Option.getD_some,
        List.not_mem_nil, if_false, List.nil_append]
      simp [hws]
    | some l0 =>
      have hk0 : k ∉ l0 := by
        have := hm k
        rw [hm2] at this
        simpa using this
      by_cases hs : s ∈ l0
      · simp only [addDir, hm2, Option.getD_some, if_pos hs, hm2]
        simpa [hm2] using hk0
      · simp only [addDir, hm2, Option.getD_some, if_neg hs]
        rw [lookupKey_setKey_self]
        simp [hk0, hws]
  · cases hm2 : lookupKey m w with
    | none =>
      simp only [addDir, hm2, lookupKey_setKey_self, Option.getD_some,
        List.not_mem_nil, if_false, List.nil_append]
      rw [lookupKey_setKey_ne _ _ _ _ hk, lookupKey_setKey_ne _ _ _ _ hk]
      exact hm k
    | some l0 =>
      by_cases hs : s ∈ l0
      · simp only [addDir, hm2, Option.getD_some, if_pos hs]
        exact hm k
      · simp only [addDir, hm2, Option.getD_some, if_neg hs]
        rw [lookupKey_setKey_ne _ _ _ _ hk]
        exact hm k

theorem noSelf_addPara (m : SynMap) (w s : String) (hws : w ≠ s) (hm : noSelf m) :
    noSelf (addSynonymPara m w s) := by
  have h := noSelf_addDir m [] w s hws hm
  intro k
  have heq : (addDir m [] w s).1 = addSynonymPara m w s := by
    cases hm2 : lookupKey m w with
    | none =>
      simp only [addDir, addSynonymPara, hm2, lookupKey_setKey_self, Option.getD_some,
        List.not_mem_nil, if_false, List.nil_append]
    | some l0 =>
      by_cases hs : s ∈ l0
      · simp only [addDir, addSynonymPara, hm2, Option.getD_some, if_pos hs]
      · simp only [addDir, addSynonymPara, hm2, Option.getD_some, if_neg hs]
  rw [← heq]
  exact h k

theorem noSelf_addHayi (st : HayiStore) (w s : String) (hws : w ≠ s)
    (hm : noSelf st.synonyms) : noSelf (addSynonymHayi st w s).synonyms := by
  have h1 := noSelf_addDir st.synonyms st.delta w s hws hm
  exact noSelf_addDir _ _ s w (fun h => hws (Eq.symm h)) h1

/-- C1 counterexample: in para.py, _add_synonym("happy", "joyful") on an empty
map records joyful under happy but does not record happy under joyful, so the
claimed symmetric direction is absent. -/
theorem c1_para_reverse_missing_cex :
    "joyful" ∈ (lookupKey (addSynonymPara [] "happy" "joyful") "happy").getD [] ∧
    ¬ ("happy" ∈ (lookupKey (addSynonymPara [] "happy" "joyful") "joyful").getD []) := by
  decide

/-- C1 (amended): after _add_synonym(w, s), hayi.py's variant stores both
directions (s in the list of w and w in the list of s); para.py's variant
stores only the forward direction (s in the list of w). -/
theorem c1_add_synonym_directions :
    (∀ (st : HayiStore) (w s : String),
      s ∈ (lookupKey (addSynonymHayi st w s).synonyms w).getD [] ∧
      w ∈ (lookupKey (addSynonymHayi st w s).synonyms s).getD []) ∧
    (∀ (m : SynMap) (w s : String),
      s ∈ (lookupKey (addSynonymPara m w s) w).getD []) := by
  constructor
  · intro st w s
    obtain ⟨la, hla, hsa⟩ := mem_lookup_addDir st.synonyms st.delta w s
    obtain ⟨lb, hlb, hsub⟩ := lookup_addDir_mono (addDir st.synonyms st.delta w s).1
      (addDir st.synonyms st.delta w s).2 s w w la hla
    obtain ⟨lc, hlc, hwc⟩ := mem_lookup_addDir (addDir st.synonyms st.delta w s).1
      (addDir st.synonyms st.delta w s).2 s w
    have hsyn : (addSynonymHayi st w s).synonyms =
        (addDir (addDir st.synonyms st.delta w s).1
          (addDir st.synonyms st.delta w s).2 s w).1 := rfl
    rw [hsyn, hlb, hlc]
    exact ⟨by simpa using hsub s hsa, by simpa using hwc⟩
  · intro m w s
    obtain ⟨l, hl, hs⟩ := mem_lookup_addPara m w s
    rw [hl]
    simpa using hs

/-- C4 counterexample: _add_synonym(w, w) puts w into its own synonym list in
both variants, violating the no-self-mapping invariant. -/
theorem c4_self_pair_cex :
    "a" ∈ (lookupKey (addSynonymPara [] "a" "a") "a").getD [] ∧
    "a" ∈ (lookupKey (addSynonymHayi ⟨[], []⟩ "a" "a").synonyms "a").getD [] := by
  decide

/-- C4 (amended): for any sequence of _add_synonym calls in which the two
arguments of each call differ, both variants preserve the invariant that no
word appears in its own synonym list (a call with word = synonym breaks it). -/
theorem c4_no_self_preserved (pairs : List (String × String))
    (hp : ∀ p ∈ pairs, p.1 ≠ p.2) (m : SynMap) (hm : noSelf m)
    (st : HayiStore) (hst : noSelf st.synonyms) :
    noSelf (pairs.foldl (fun acc p => addSynonymPara acc p.1 p.2) m) ∧
    noSelf ((pairs.foldl (fun acc p => addSynonymHayi acc p.1 p.2) st).synonyms) := by
  constructor
  · exact foldl_inv _ noSelf pairs m hm
      (fun x p hx hmem => noSelf_addPara x p.1 p.2 (hp p hmem) hx)
  · exact foldl_inv _ (fun acc => noSelf acc.synonyms) pairs st hst
      (fun x p hx hmem => noSelf_addHayi x p.1 p.2 (hp p hmem) hx)

/-- Witness for c4_no_self_preserved at the sequence [("a", "b")] starting
from empty stores. -/
theorem c4_no_self_preserved_witness :
    noSelf ([("a", "b")].foldl (fun acc p => addSynonymPara acc p.1 p.2) []) ∧
    noSelf (([("a", "b")].foldl (fun acc p => addSynonymHayi acc p.1 p.2)
      ⟨[], []⟩).synonyms) :=
  c4_no_self_preserved [("a", "b")] (by decide) [] (fun k => by simp [lookupKey])
    ⟨[], []⟩ (fun k => by simp [lookupKey])

/-- C9: _add_synonym is idempotent in both variants: adding the same pair
twice yields exactly the same state as adding it once (for hayi.py this
includes the newly_added_synonyms delta). -/
theorem c9_add_synonym_idempotent :
    (∀ (m : SynMap) (w s : String),
      addSynonymPara (addSynonymPara m w s) w s = addSynonymPara m w s) ∧
    (∀ (st : HayiStore) (w s : String),
      addSynonymHayi (addSynonymHayi st w s) w s = addSynonymHayi st w s) := by
  constructor
  · intro m w s
    obtain ⟨l, hl, hs⟩ := mem_lookup_addPara m w s
    exact addPara_of_mem _ _ _ _ hl hs
  · intro st w s
    obtain ⟨la, hla, hsa⟩ := mem_lookup_addDir st.synonyms st.delta w s
    obtain ⟨lb, hlb, hsub⟩ := lookup_addDir_mono (addDir st.synonyms st.delta w s).1
      (addDir st.synonyms st.delta w s).2 s w w la hla
    obtain ⟨lc, hlc, hwc⟩ := mem_lookup_addDir (addDir st.synonyms st.delta w s).1
      (addDir st.synonyms st.delta w s).2 s w
    have h1 : addSynonymHayi st w s =
        ⟨(addDir (addDir st.synonyms st.delta w s).1
            (addDir st.synonyms st.delta w s).2 s w).1,
         (addDir (addDir st.synonyms st.delta w s).1
            (addDir st.synonyms st.delta w s).2 s w).2⟩ := rfl
    rw [h1]
    show addSynonymHayi _ w s = _
    unfold addSynonymHayi
    simp only
    rw [addDir_of_mem _ _ w s lb hlb (hsub s hsa)]
    simp only
    rw [addDir_of_mem _ _ s w lc hlc hwc]

/-- One loop iteration of batch_learn_synonyms (para.py lines 80-95,
hayi.py lines 81-97): a record with at least two fields feeds its first two
fields, lowercased, to _add_synonym and bumps both counters; any other
record is skipped.  The add operation is a parameter so the same step serves
both variants. -/
def blStep {α : Type} (add : α → String → String → α) (acc : α × Nat × Nat)
    (row : List String) : α × Nat × Nat :=
  match row with
  | w :: s :: _ => (add acc.1 (lowerString w) (lowerString s), acc.2.1 + 1, acc.2.2 + 1)
  | _ => acc

/-- para.py lines 59-104, batch_learn_synonyms: fold over the parsed records
(the csv module / line splitting yields each record as a list of string
fields), starting from counters (0, 0).  Returns (map, total_words, new_words). -/
def batchLearnPara (m : SynMap) (rows : List (List String)) : SynMap × Nat × Nat :=
  rows.foldl (blStep addSynonymPara) (m, 0, 0)

/-- hayi.py lines 70-104, batch_learn_synonyms: same fold over records; the
newly_added_synonyms delta is reset to empty before processing starts. -/
def batchLearnHayi (st : HayiStore) (rows : List (List String)) :
    HayiStore × Nat × Nat :=
  rows.foldl (blStep addSynonymHayi) (⟨st.synonyms, []⟩, 0, 0)

/-- Row-by-row runner with an exception after k successfully read records:
the except handler (para.py/hayi.py lines 102-104) returns the counters
accumulated so far, and the map keeps every record applied before the fault. -/
def blGoFault {α : Type} (add : α → String → String → α) :
    α → Nat → Nat → List (List String) → Nat → α × Nat × Nat
  | a, t, n, _, 0 => (a, t, n)
  | a, t, n, [], _ + 1 => (a, t, n)
  | a, t, n, row :: rows, k + 1 =>
    match row with
    | w :: s :: _ => blGoFault add (add a (lowerString w) (lowerString s)) (t + 1) (n + 1) rows k
    | _ => blGoFault add a t n rows k

/-- Faulting run of para.py's batch_learn_synonyms. -/
def batchLearnParaFault (m : SynMap) (rows : List (List String)) (k : Nat) :
    SynMap × Nat × Nat :=
  blGoFault addSynonymPara m 0 0 rows k

/-- Faulting run of hayi.py's batch_learn_synonyms (delta reset happens
before the try block, so it is performed even when a fault follows). -/
def batchLearnHayiFault (st : HayiStore) (rows : List (List String)) (k : Nat) :
    HayiStore × Nat × Nat :=
  blGoFault addSynonymHayi ⟨st.synonyms, []⟩ 0 0 rows k

theorem blGoFault_eq_foldl_take {α : Type} (add : α → String → String → α) :
    ∀ (rows : List (List String)) (k : Nat) (a : α) (t n : Nat),
    blGoFault add a t n rows k = (rows.take k).foldl (blStep add) (a, t, n) := by
  intro rows
  induction rows with
  | nil =>
    intro k a t n
    cases k <;> simp [blGoFault]
  | cons row rest ih =>
    intro k a t n
    cases k with
    | zero => simp [blGoFault]
    | succ k2 =>
      cases row with
      | nil => simp [blGoFault, blStep, ih]
      | cons w r2 =>
        cases r2 with
        | nil => simp [blGoFault, blStep, ih]
        | cons s r3 => simp [blGoFault, blStep, ih]

theorem blFold_total {α : Type} (add : α → String → String → α) :
    ∀ (rows : List (List String)) (a : α) (t n : Nat),
    (rows.foldl (blStep add) (a, t, n)).2.1 =
      t + (rows.filter (fun r => decide (2 ≤ r.length))).length := by
  intro rows
  induction rows with
  | nil => intro a t n; simp
  | cons row rest ih =>
    intro a t n
    cases row with
    | nil => simpa [blStep] using ih a t n
    | cons w r2 =>
      cases r2 with
      | nil => simpa [blStep] using ih a t n
      | cons s r3 =>
        simp only [List.foldl_cons, blStep, List.filter_cons]
        rw [ih]
        simp
        omega

theorem blFold_new_eq_total {α : Type} (add : α → String → String → α) :
    ∀ (rows : List (List String)) (a : α) (t n : Nat),
    (rows.foldl (blStep add) (a, t, n)).2.2 + t =
      (rows.foldl (blStep add) (a, t, n)).2.1 + n := by
  intro rows
  induction rows with
  | nil => intro a t n; simp [Nat.add_comm]
  | cons row rest ih =>
    intro a t n
    cases row with
    | nil => simpa [blStep] using ih a t n
    | cons w r2 =>
      cases r2 with
      | nil => simpa [blStep] using ih a t n
      | cons s r3 =>
        simp only [List.foldl_cons, blStep]
        have := ih (add a (lowerString w) (lowerString s)) (t + 1) (n + 1)
        omega

theorem blFold_filter {α : Type} (add : α → String → String → α) :
    ∀ (rows : List (List String)) (acc : α × Nat × Nat),
    rows.foldl (blStep add) acc =
      (rows.filter (fun r => decide (2 ≤ r.length))).foldl (blStep add) acc := by
  intro rows
  induction rows with
  | nil => intro acc; simp
  | cons row rest ih =>
    intro acc
    cases row with
    | nil => simpa [blStep] using ih acc
    | cons w r2 =>
      cases r2 with
      | nil => simpa [blStep] using ih acc
      | cons s r3 =>
        simp only [List.foldl_cons, List.filter_cons]
        simp only [List.length_cons, decide_eq_true_eq]
        rw [if_pos (by omega)]
        simp only [List.foldl_cons]
        exact ih _

theorem blFold_take2 {α : Type} (add : α → String → String → α) :
    ∀ (rows : List (List String)) (acc : α × Nat × Nat),
    rows.foldl (blStep add) acc =
      (rows.map (fun r => r.take 2)).foldl (blStep add) acc := by
  intro rows
  induction rows with
  | nil => intro acc; simp
  | cons row rest ih =>
    intro acc
    cases row with
    | nil => simpa [blStep] using ih acc
    | cons w r2 =>
      cases r2 with
      | nil => simpa [blStep] using ih acc
      | cons s r3 =>
        simp only [List.map_cons, List.foldl_cons, List.take, blStep]
        exact ih _

/-- Spec section 8 example: five records of which three have at least two
fields and two are short. -/
def ex5rows : List (List String) :=
  [["happy", "joyful"], ["big"], ["go", "travel", "x"], [], ["say", "tell"]]

/-- C5: a record counts toward total_words only when it has at least two
fields; only the first two fields (lowercased) matter, extra fields are
ignored; short records contribute nothing to the counts or the map; both
variants agree, and the 5-record example yields a total of 3. -/
theorem c5_record_qualification :
    (∀ (m : SynMap) (rows : List (List String)),
      (batchLearnPara m rows).2.1 =
        (rows.filter (fun r => decide (2 ≤ r.length))).length ∧
      batchLearnPara m rows =
        batchLearnPara m (rows.filter (fun r => decide (2 ≤ r.length))) ∧
      batchLearnPara m rows = batchLearnPara m (rows.map (fun r => r.take 2))) ∧
    (∀ (st : HayiStore) (rows : List (List String)),
      (batchLearnHayi st rows).2.1 =
        (rows.filter (fun r => decide (2 ≤ r.length))).length ∧
      batchLearnHayi st rows =
        batchLearnHayi st (rows.filter (fun r => decide (2 ≤ r.length))) ∧
      batchLearnHayi st rows = batchLearnHayi st (rows.map (fun r => r.take 2))) ∧
    (batchLearnPara [] ex5rows).2.1 = 3 ∧
    (batchLearnHayi ⟨[], []⟩ ex5rows).2.1 = 3 := by
  refine ⟨fun m rows => ⟨?_, ?_, ?_⟩, fun st rows => ⟨?_, ?_, ?_⟩, ?_, ?_⟩
  · simpa using blFold_total addSynonymPara rows m 0 0
  · exact blFold_filter addSynonymPara rows (m, 0, 0)
  · exact blFold_take2 addSynonymPara rows (m, 0, 0)
  · simpa using blFold_total addSynonymHayi rows ⟨st.synonyms, []⟩ 0 0
  · exact blFold_filter addSynonymHayi rows (⟨st.synonyms, []⟩, 0, 0)
  · exact blFold_take2 addSynonymHayi rows (⟨st.synonyms, []⟩, 0, 0)
  · decide
  · decide

/-- C2: the code increments new_words unconditionally for every qualifying
record, so new_words always equals total_words in both variants; in
particular a file repeating the same pair twice reports two new pairs even
though the second record adds no new mapping direction (the store and the
newly-added delta are unchanged by the duplicate). -/
theorem c2_new_words_unconditional :
    (∀ (m : SynMap) (rows : List (List String)),
      (batchLearnPara m rows).2.2 = (batchLearnPara m rows).2.1) ∧
    (∀ (st : HayiStore) (rows : List (List String)),
      (batchLearnHayi st rows).2.2 = (batchLearnHayi st rows).2.1) ∧
    (batchLearnHayi ⟨[], []⟩ [["happy", "joyful"], ["happy", "joyful"]]).2.1 = 2 ∧
    (batchLearnHayi ⟨[], []⟩ [["happy", "joyful"], ["happy", "joyful"]]).2.2 = 2 ∧
    (batchLearnHayi ⟨[], []⟩ [["happy", "joyful"], ["happy", "joyful"]]).1 =
      (batchLearnHayi ⟨[], []⟩ [["happy", "joyful"]]).1 := by
  refine ⟨fun m rows => ?_, fun st rows => ?_, ?_, ?_, ?_⟩
  · simpa using blFold_new_eq_total addSynonymPara rows m 0 0
  · simpa using blFold_new_eq_total addSynonymHayi rows ⟨st.synonyms, []⟩ 0 0
  · decide
  · decide
  · rfl

/-- C8: when an exception interrupts batch_learn_synonyms after k records
have been read, both variants return exactly the counts accumulated over
those k records and the in-memory map holds exactly the records applied
before the fault (processing the k-record file prefix), with no rollback. -/
theorem c8_fault_keeps_accumulated_state :
    (∀ (m : SynMap) (rows : List (List String)) (k : Nat),
      batchLearnParaFault m rows k = batchLearnPara m (rows.take k)) ∧
    (∀ (st : HayiStore) (rows : List (List String)) (k : Nat),
      batchLearnHayiFault st rows k = batchLearnHayi st (rows.take k)) := by
  constructor
  · intro m rows k
    exact blGoFault_eq_foldl_take addSynonymPara rows k m 0 0
  · intro st rows k
    exact blGoFault_eq_foldl_take addSynonymHayi rows k ⟨st.synonyms, []⟩ 0 0

/-- Embeds the regex character class \w used by re.findall in paraphrase
(ASCII fragment): letters, digits and underscore. -/
def isWordChar (c : Char) : Bool := c.isAlphanum || c = '_'

/-- Worker for tokenize: scans the characters, accumulating the current
word-character run (reversed). -/
def tokenizeAux : List Char → List Char → List String
  | [], cur => if cur.isEmpty then [] else [String.mk cur.reverse]
  | c :: cs, cur =>
    if isWordChar c then tokenizeAux cs (c :: cur)
    else if cur.isEmpty then tokenizeAux cs []
    else String.mk cur.reverse :: tokenizeAux cs []

/-- Embeds re.findall of word-character runs (para.py line 134, hayi.py
line 128): the maximal runs of word characters, in order. -/
def tokenize (s : String) : List String := tokenizeAux s.data []

/-- Length of the longest common prefix of two character lists. -/
def commonPrefixLen : List Char → List Char → Nat
  | a :: as, b :: bs => if a = b then commonPrefixLen as bs + 1 else 0
  | _, _ => 0

/-- Length of the matching run starting at positions i and j, clipped to the
ranges [i, ahi) and [j, bhi). -/
def clipLen (a b : List Char) (i ahi j bhi : Nat) : Nat :=
  commonPrefixLen ((a.drop i).take (ahi - i)) ((b.drop j).take (bhi - j))

/-- Embeds difflib SequenceMatcher find_longest_match on the ranges
[alo, ahi) x [blo, bhi) with no junk (the inputs here are short words, so
difflib's autojunk never fires): the longest matching block, the first one
in scan order on ties, returned as (start in a, start in b, size). -/
def bestMatch (a b : List Char) (alo ahi blo bhi : Nat) : Nat × Nat × Nat :=
  (List.range (ahi - alo)).foldl (fun best di =>
    (List.range (bhi - blo)).foldl (fun best2 dj =>
      let i := alo + di
      let j := blo + dj
      let k := clipLen a b i ahi j bhi
      if best2.2.2 < k then (i, j, k) else best2) best)
    (alo, blo, 0)

/-- Embeds the total size of difflib's get_matching_blocks decomposition:
take the longest match, recurse left and right of it.  Each recursive call
strictly shrinks the combined range size, so fuel larger than that size
makes the fuel pattern exact. -/
def matchTotalF (a b : List Char) : Nat → Nat → Nat → Nat → Nat → Nat
  | 0, _, _, _, _ => 0
  | fuel + 1, alo, ahi, blo, bhi =>
    let m := bestMatch a b alo ahi blo bhi
    if m.2.2 = 0 then 0
    else
      matchTotalF a b fuel alo m.1 blo m.2.1 + m.2.2 +
        matchTotalF a b fuel (m.1 + m.2.2) ahi (m.2.1 + m.2.2) bhi

/-- Embeds SequenceMatcher(None, x, y).ratio() from hayi.py line 48:
2 * (total matched characters) / (total length), and 1.0 when both strings
are empty.  difflib returns this as a float; it is modelled as the exact
rational, which leaves the boundary comparison against the threshold the
same >= test the source performs. -/
def ratioQ (x y : String) : ℚ :=
  let a := x.data
  let b := y.data
  let t := a.length + b.length
  if t = 0 then 1 else mkRat (2 * matchTotalF a b (t + 1) 0 a.length 0 b.length) t

/-- Embeds Python str.isalpha() (ASCII fragment): nonempty and all letters. -/
def pyIsAlpha (s : String) : Bool := !s.data.isEmpty && s.data.all Char.isAlpha

/-- hayi.py line 45: lemma.name().replace("_", " ").lower(). -/
def normalizeLemma (lem : String) : String :=
  lowerString (String.mk (lem.data.map (fun c => if c = '_' then ' ' else c)))

/-- hayi.py lines 40-51, _get_nltk_synonyms: the external WordNet database is
supplied as the list of lemma names of all synsets of the word (it is outside
the repository); each normalized candidate is kept when it differs from the
input word, is purely alphabetic, and its similarity ratio reaches the
confidence threshold.  The Python set is modelled as a deduplicated list in
first-seen order; the claims about this function concern membership only. -/
def getNltkSynonymsL (conf : ℚ) (word : String) (lemmas : List String) : List String :=
  lemmas.foldl (fun acc lem =>
    if normalizeLemma lem ≠ word ∧ pyIsAlpha (normalizeLemma lem) = true ∧
        conf ≤ ratioQ word (normalizeLemma lem) ∧ normalizeLemma lem ∉ acc
    then acc ++ [normalizeLemma lem] else acc) []

/-- Provenance tag recorded in hayi.py line 155. -/
inductive Source where
  | learned
  | nltk
deriving DecidableEq, Repr

/-- hayi.py lines 151-156: one entry of changed_words. -/
structure ChangeRec where
  original : String
  new : String
  position : Nat
  source : Source
deriving DecidableEq, Repr

/-- hayi.py lines 139-142: the learned candidates for a lowercased token,
excluding the token itself. -/
def hayiLearned (syn : SynMap) (cw : String) : List String :=
  ((lookupKey syn cw).getD []).filter (fun s => decide (s ≠ cw))

/-- hayi.py lines 144-145: the nltk_synonyms list for a token; empty when
the NLTK toggle is off (the source then skips the call). -/
def hayiNltk (useNltk : Bool) (conf : ℚ) (db : String → List String)
    (cw : String) : List String :=
  if useNltk then getNltkSynonymsL conf cw (db cw) else []

/-- hayi.py line 146: learned candidates extended with the NLTK candidates
not already present. -/
def hayiCands (syn : SynMap) (useNltk : Bool) (conf : ℚ)
    (db : String → List String) (cw : String) : List String :=
  hayiLearned syn cw ++
    (hayiNltk useNltk conf db cw).filter (fun s => decide (s ∉ hayiLearned syn cw))

/-- hayi.py lines 135-158: processing of one token inside one variation.
The accumulator carries modified_words, changed_words and the remaining
random.choice oracle; random.choice over a nonempty candidate list is
embedded as indexing by the next oracle value modulo the length. -/
def hayiStep (syn : SynMap) (useNltk : Bool) (conf : ℚ) (db : String → List String)
    (acc : List String × List ChangeRec × List Nat) (w : String) :
    List String × List ChangeRec × List Nat :=
  if (hayiCands syn useNltk conf db (lowerString w)).isEmpty then
    (acc.1 ++ [w], acc.2.1, acc.2.2)
  else
    let cands := hayiCands syn useNltk conf db (lowerString w)
    let nw := cands.getD (acc.2.2.headD 0 % cands.length) ""
    let src := if useNltk = true ∧ nw ∈ hayiNltk useNltk conf db (lowerString w)
      then Source.nltk else Source.learned
    (acc.1 ++ [nw], acc.2.1 ++ [⟨w, nw, acc.1.length, src⟩], acc.2.2.tail)

/-- One variation pass of hayi.py's paraphrase (the inner for-loop). -/
def hayiVariationGo (syn : SynMap) (useNltk : Bool) (conf : ℚ)
    (db : String → List String) (words : List String)
    (acc : List String × List ChangeRec × List Nat) :
    List String × List ChangeRec × List Nat :=
  words.foldl (hayiStep syn useNltk conf db) acc

/-- hayi.py lines 127-163, paraphrase, before joining tokens: the list of
(modified token list, changed_words) pairs for num_variations passes, with
the random oracle threaded through the passes. -/
def hayiParaphraseTokens (syn : SynMap) (useNltk : Bool) (conf : ℚ)
    (db : String → List String) (words : List String) :
    Nat → List Nat → List (List String × List ChangeRec)
  | 0, _ => []
  | n + 1, rnd =>
    let r := hayiVariationGo syn useNltk conf db words ([], [], rnd)
    (r.1, r.2.1) :: hayiParaphraseTokens syn useNltk conf db words n r.2.2

/-- hayi.py paraphrase: variations as (joined text, changed_words). -/
def hayiParaphrase (syn : SynMap) (useNltk : Bool) (conf : ℚ)
    (db : String → List String) (text : String) (n : Nat) (rnd : List Nat) :
    List (String × List ChangeRec) :=
  (hayiParaphraseTokens syn useNltk conf db (tokenize text) n rnd).map
    (fun v => (String.intercalate " " v.1, v.2))

/-- para.py lines 142-151: processing of one token inside one variation.
Every token consumes one gate value (random.random() < 0.3); a fired gate
looks up the lowercased token with default [current_word] and, when that
list is nonempty, consumes one choice value and substitutes. -/
def paraStep (syn : SynMap) (acc : List String × List Bool × List Nat)
    (w : String) : List String × List Bool × List Nat :=
  let gate := acc.2.1.headD false
  let gates := acc.2.1.tail
  if gate then
    let cw := lowerString w
    let syns := (lookupKey syn cw).getD [cw]
    if syns.isEmpty then (acc.1 ++ [w], gates, acc.2.2)
    else
      let idx := acc.2.2.headD 0
      (acc.1 ++ [syns.getD (idx % syns.length) ""], gates, acc.2.2.tail)
  else (acc.1 ++ [w], gates, acc.2.2)

/-- One variation pass of para.py's paraphrase. -/
def paraVariationGo (syn : SynMap) (words : List String)
    (acc : List String × List Bool × List Nat) :
    List String × List Bool × List Nat :=
  words.foldl (paraStep syn) acc

/-- para.py lines 122-157, paraphrase, before joining tokens. -/
def paraParaphraseTokens (syn : SynMap) (words : List String) :
    Nat → List Bool → List Nat → List (List String)
  | 0, _, _ => []
  | n + 1, gates, choices =>
    let r := paraVariationGo syn words ([], gates, choices)
    r.1 :: paraParaphraseTokens syn words n r.2.1 r.2.2

/-- para.py paraphrase: the joined variation texts. -/
def paraParaphrase (syn : SynMap) (text : String) (n : Nat)
    (gates : List Bool) (choices : List Nat) : List String :=
  (paraParaphraseTokens syn (tokenize text) n gates choices).map
    (fun toks => String.intercalate " " toks)

theorem getNltk_aux (conf : ℚ) (word : String) :
    ∀ (lemmas : List String) (acc : List String) (s : String),
    (s ∈ lemmas.foldl (fun acc2 lem =>
        if normalizeLemma lem ≠ word ∧ pyIsAlpha (normalizeLemma lem) = true ∧
            conf ≤ ratioQ word (normalizeLemma lem) ∧ normalizeLemma lem ∉ acc2
        then acc2 ++ [normalizeLemma lem] else acc2) acc) ↔
      (s ∈ acc ∨ ((∃ lem ∈ lemmas, normalizeLemma lem = s) ∧ s ≠ word ∧
        pyIsAlpha s = true ∧ conf ≤ ratioQ word s)) := by
  intro lemmas
  induction lemmas with
  | nil => intro acc s; simp
  | cons lem rest ih =>
    intro acc s
    simp only [List.foldl_cons]
    rw [ih]
    by_cases hc : normalizeLemma lem ≠ word ∧ pyIsAlpha (normalizeLemma lem) = true ∧
        conf ≤ ratioQ word (normalizeLemma lem) ∧ normalizeLemma lem ∉ acc
    · rw [if_pos hc]
      simp only [List.mem_append, List.mem_singleton, List.exists_mem_cons_iff]
      constructor
      · rintro (hs | ⟨he, hq⟩)
        · rcases hs with hs | hs
          · exact Or.inl hs
          · subst hs
            exact Or.inr ⟨Or.inl rfl, hc.1, hc.2.1, hc.2.2.1⟩
        · exact Or.inr ⟨Or.inr he, hq⟩
      · rintro (hs | ⟨he, hq⟩)
        · exact Or.inl (Or.inl hs)
        · rcases he with he | he
          · exact Or.inl (Or.inr (Eq.symm he))
          · exact Or.inr ⟨he, hq⟩
    · rw [if_neg hc]
      simp only [List.exists_mem_cons_iff]
      constructor
      · rintro (hs | ⟨he, hq⟩)
        · exact Or.inl hs
        · exact Or.inr ⟨Or.inr he, hq⟩
      · rintro (hs | ⟨he, hq⟩)
        · exact Or.inl hs
        · rcases he with he | he
          · subst he
            left
            by_contra hmem
            exact hc ⟨hq.1, hq.2.1, hq.2.2, hmem⟩
          · exact Or.inr ⟨he, hq⟩

/-- C6: a normalized WordNet candidate is kept by _get_nltk_synonyms exactly
when it differs from the input word, is purely alphabetic, and its
similarity ratio meets or exceeds the confidence threshold; in particular,
for "quack" vs "quick" the ratio is exactly 4/5, which is accepted at
threshold 4/5 (boundary equality accepted) and rejected at 81/100. -/
theorem c6_lexical_filter :
    (∀ (conf : ℚ) (word : String) (lemmas : List String) (s : String),
      s ∈ getNltkSynonymsL conf word lemmas ↔
        ((∃ lem ∈ lemmas, normalizeLemma lem = s) ∧ s ≠ word ∧
          pyIsAlpha s = true ∧ conf ≤ ratioQ word s)) ∧
    ratioQ "quack" "quick" = mkRat 4 5 ∧
    "quick" ∈ getNltkSynonymsL (mkRat 4 5) "quack" ["quick"] ∧
    "quick" ∉ getNltkSynonymsL (mkRat 81 100) "quack" ["quick"] := by
  refine ⟨fun conf word lemmas s => ?_, by decide, by decide, by decide⟩
  have h := getNltk_aux conf word lemmas [] s
  simpa [getNltkSynonymsL] using h

theorem hayiStep_shape (syn : SynMap) (useNltk : Bool) (conf : ℚ)
    (db : String → List String) (pre : List String) (ch : List ChangeRec)
    (rnd : List Nat) (w : String) :
    ∃ x ch1 rnd1,
      hayiStep syn useNltk conf db (pre, ch, rnd) w = (pre ++ [x], ch1, rnd1) := by
  by_cases hc : (hayiCands syn useNltk conf db (lowerString w)).isEmpty = true
  · exact ⟨w, ch, rnd, by simp [hayiStep, hc]⟩
  · refine ⟨(hayiCands syn useNltk conf db (lowerString w)).getD
        (rnd.headD 0 % (hayiCands syn useNltk conf db (lowerString w)).length) "",
      ch ++ [⟨w,
        (hayiCands syn useNltk conf db (lowerString w)).getD
          (rnd.headD 0 % (hayiCands syn useNltk conf db (lowerString w)).length) "",
        pre.length,
        if useNltk = true ∧ (hayiCands syn useNltk conf db (lowerString w)).getD
            (rnd.headD 0 % (hayiCands syn useNltk conf db (lowerString w)).length) "" ∈
            hayiNltk useNltk conf db (lowerString w)
        then Source.nltk else Source.learned⟩], rnd.tail, ?_⟩
    simp [hayiStep, hc]

theorem hayiStep_absent (syn : SynMap) (conf : ℚ) (db : String → List String)
    (pre : List String) (ch : List ChangeRec) (rnd : List Nat) (w : String)
    (hlw : lookupKey syn (lowerString w) = none) :
    hayiStep syn false conf db (pre, ch, rnd) w = (pre ++ [w], ch, rnd) := by
  have hc : (hayiCands syn false conf db (lowerString w)).isEmpty = true := by
    simp [hayiCands, hayiLearned, hayiNltk, hlw]
  simp [hayiStep, hc]

theorem hayiFold_shape (syn : SynMap) (conf : ℚ) (db : String → List String) :
    ∀ (words : List String) (pre : List String) (ch : List ChangeRec) (rnd : List Nat),
    ∃ (out : List String) (ch2 : List ChangeRec) (rnd2 : List Nat),
      hayiVariationGo syn false conf db words (pre, ch, rnd) = (pre ++ out, ch2, rnd2) ∧
      (∀ (i : Nat) (w : String), words[i]? = some w →
        lookupKey syn (lowerString w) = none → out[i]? = some w) := by
  intro words
  induction words with
  | nil =>
    intro pre ch rnd
    exact ⟨[], ch, rnd, by simp [hayiVariationGo], by simp⟩
  | cons w ws ih =>
    intro pre ch rnd
    obtain ⟨x, ch1, rnd1, hx⟩ := hayiStep_shape syn false conf db pre ch rnd w
    obtain ⟨out1, ch2, rnd2, heq, hidx⟩ := ih (pre ++ [x]) ch1 rnd1
    refine ⟨x :: out1, ch2, rnd2, ?_, ?_⟩
    · have h2 : hayiVariationGo syn false conf db (w :: ws) (pre, ch, rnd) =
          hayiVariationGo syn false conf db ws (pre ++ [x], ch1, rnd1) := by
        simp only [hayiVariationGo, List.foldl_cons, hx]
      rw [h2, heq]
      simp
    · intro i v hv habs
      cases i with
      | zero =>
        simp only [List.getElem?_cons_zero, Option.some.injEq] at hv ⊢
        have habs3 : lookupKey syn (lowerString w) = none := by rw [hv]; exact habs
        have habs2 := hayiStep_absent syn conf db pre ch rnd w habs3
        rw [hx] at habs2
        have h3 : pre ++ [x] = pre ++ [w] := congrArg (fun t => t.1) habs2
        have h4 : x = w := by simpa using h3
        exact h4.trans hv
      | succ i2 =>
        simp only [List.getElem?_cons_succ] at hv ⊢
        exact hidx i2 v hv habs

/-- C3 (amended): in hayi.py, with the lexical expander disabled, every
token whose lowercased form is absent from the map is passed through
unchanged (original casing preserved) at its position in every variation;
para.py violates this (see the counterexample), replacing such a token by
its lowercased form when the substitution gate fires. -/
theorem c3_absent_token_unchanged (syn : SynMap) (conf : ℚ)
    (db : String → List String) (text : String) (n : Nat) (rnd : List Nat)
    (i : Nat) (w : String) (hw : (tokenize text)[i]? = some w)
    (habs : lookupKey syn (lowerString w) = none) :
    ∀ v ∈ hayiParaphraseTokens syn false conf db (tokenize text) n rnd,
      v.1[i]? = some w := by
  generalize tokenize text = words at hw
  induction n generalizing rnd with
  | zero =>
    intro v hv
    simp [hayiParaphraseTokens] at hv
  | succ k ih =>
    intro v hv
    simp only [hayiParaphraseTokens, List.mem_cons] at hv
    obtain ⟨out, ch2, rnd2, heq, hidx⟩ := hayiFold_shape syn conf db words [] [] rnd
    rcases hv with rfl | hv
    · rw [heq]
      simpa using hidx i w hw habs
    · exact ih rnd2 v (by rw [heq] at hv; exact hv)

/-- C3 counterexample: in para.py, the token "Hello" is absent from the
empty map, yet when the substitution gate fires, paraphrase replaces it by
its lowercased form "hello", so the token is not left unchanged as typed. -/
theorem c3_para_lowercases_cex :
    paraParaphrase [] "Hello" 1 [true] [0] = ["hello"] ∧
    lookupKey ([] : SynMap) (lowerString "Hello") = none ∧
    ("hello" : String) ≠ "Hello" := by
  decide

/-- Witness for c3_absent_token_unchanged on the text "Hello" with an
empty map, one variation and an empty oracle. -/
theorem c3_absent_token_unchanged_witness :
    ((tokenize "Hello")[0]? = some "Hello") ∧
    (∀ v ∈ hayiParaphraseTokens [] false (mkRat 4 5) (fun _ => [])
      (tokenize "Hello") 1 [], v.1[0]? = some "Hello") :=
  ⟨by decide, c3_absent_token_unchanged [] (mkRat 4 5) (fun _ => [])
    "Hello" 1 [] 0 "Hello" (by decide) (by decide)⟩

/-- The relationship between a ChangeRecord's tag and the expander output,
exactly as hayi.py line 155 computes the tag. -/
def tagMatchesNltk (useNltk : Bool) (conf : ℚ) (db : String → List String)
    (r : ChangeRec) : Prop :=
  r.source = Source.nltk ↔ (useNltk = true ∧
    r.new ∈ getNltkSynonymsL conf (lowerString r.original) (db (lowerString r.original)))

theorem hayiStep_records (syn : SynMap) (useNltk : Bool) (conf : ℚ)
    (db : String → List String) (acc : List String × List ChangeRec × List Nat)
    (w : String) (rec : ChangeRec)
    (hr : rec ∈ (hayiStep syn useNltk conf db acc w).2.1) :
    rec ∈ acc.2.1 ∨ tagMatchesNltk useNltk conf db rec := by
  by_cases hc : (hayiCands syn useNltk conf db (lowerString w)).isEmpty = true
  · left
    simpa [hayiStep, hc] using hr
  · unfold hayiStep at hr
    rw [if_neg hc] at hr
    simp only [List.mem_append, List.mem_singleton] at hr
    rcases hr with hr | hr
    · exact Or.inl hr
    · right
      subst hr
      simp only [tagMatchesNltk]
      cases useNltk with
      | false => simp [hayiNltk]
      | true =>
        have hnl : hayiNltk true conf db (lowerString w) =
            getNltkSynonymsL conf (lowerString w) (db (lowerString w)) := by
          simp [hayiNltk]
        by_cases hy : (hayiCands syn true conf db (lowerString w)).getD
            (acc.2.2.headD 0 % (hayiCands syn true conf db (lowerString w)).length) "" ∈
            getNltkSynonymsL conf (lowerString w) (db (lowerString w))
        · have hy2 : (hayiCands syn true conf db (lowerString w)).getD
              (acc.2.2.headD 0 % (hayiCands syn true conf db (lowerString w)).length) "" ∈
              hayiNltk true conf db (lowerString w) := by
            rw [hnl]
            exact hy
          rw [if_pos (And.intro rfl hy2)]
          exact iff_of_true rfl (And.intro rfl hy)
        · have hy2 : ¬ ((hayiCands syn true conf db (lowerString w)).getD
              (acc.2.2.headD 0 % (hayiCands syn true conf db (lowerString w)).length) "" ∈
              hayiNltk true conf db (lowerString w)) := by
            rw [hnl]
            exact hy
          rw [if_neg (fun hcon => hy2 hcon.2)]
          exact iff_of_false (fun h => Source.noConfusion h) (fun hcon => hy hcon.2)
  
theorem hayiFold_records (syn : SynMap) (useNltk : Bool) (conf : ℚ)
    (db : String → List String) :
    ∀ (words : List String) (acc : List String × List ChangeRec × List Nat),
    (∀ r ∈ acc.2.1, tagMatchesNltk useNltk conf db r) →
    ∀ r ∈ (hayiVariationGo syn useNltk conf db words acc).2.1,
      tagMatchesNltk useNltk conf db r := by
  intro words
  induction words with
  | nil =>
    intro acc hacc
    simpa [hayiVariationGo] using hacc
  | cons w ws ih =>
    intro acc hacc
    have hstep : ∀ r ∈ (hayiStep syn useNltk conf db acc w).2.1,
        tagMatchesNltk useNltk conf db r := by
      intro r hr
      rcases hayiStep_records syn useNltk conf db acc w r hr with h | h
      · exact hacc r h
      · exact h
    have h2 : hayiVariationGo syn useNltk conf db (w :: ws) acc =
        hayiVariationGo syn useNltk conf db ws (hayiStep syn useNltk conf db acc w) := by
      simp [hayiVariationGo]
    rw [h2]
    exact ih _ hstep

/-- C7 (amended): a ChangeRecord produced by hayi.py's paraphrase is tagged
as the NLTK source exactly when NLTK is enabled and the chosen word is in
the lexical expander's candidate list for the token, even when the word was
also available from the learned map; it is tagged Learned otherwise.  In the
both-sources case the tag is therefore the external-lexicon source, not the
learned source. -/
theorem c7_source_tag (syn : SynMap) (useNltk : Bool) (conf : ℚ)
    (db : String → List String) (text : String) (n : Nat) (rnd : List Nat)
    (v : List String × List ChangeRec)
    (hv : v ∈ hayiParaphraseTokens syn useNltk conf db (tokenize text) n rnd)
    (rec : ChangeRec) (hr : rec ∈ v.2) :
    rec.source = Source.nltk ↔ (useNltk = true ∧
      rec.new ∈ getNltkSynonymsL conf (lowerString rec.original)
        (db (lowerString rec.original))) := by
  generalize tokenize text = words at hv
  induction n generalizing rnd with
  | zero => simp [hayiParaphraseTokens] at hv
  | succ k ih =>
    simp only [hayiParaphraseTokens, List.mem_cons] at hv
    rcases hv with rfl | hv
    · exact hayiFold_records syn useNltk conf db words ([], [], rnd) (by simp) rec hr
    · exact ih _ hv

/-- C7 counterexample: with the learned map make -> [makes] and a lexicon
also offering makes (similarity 8/9 at threshold 4/5), the chosen candidate
makes is available from both the learned map and the expander
simultaneously, yet the recorded tag is the NLTK source, not the learned
source as the claim states. -/
theorem c7_both_sources_tagged_nltk_cex :
    hayiParaphraseTokens [("make", ["makes"])] true (mkRat 4 5)
      (fun w => if w = "make" then ["makes"] else []) ["make"] 1 [0] =
      [(["makes"], [⟨"make", "makes", 0, Source.nltk⟩])] ∧
    "makes" ∈ (lookupKey [("make", ["makes"])] "make").getD [] ∧
    "makes" ∈ getNltkSynonymsL (mkRat 4 5) "make" ["makes"] := by
  decide

/-- Witness for c7_source_tag at a concrete run: text "make", learned map
make -> [makes], lexicon offering makes, one variation, oracle [0]. -/
theorem c7_source_tag_witness :
    (⟨"make", "makes", 0, Source.nltk⟩ : ChangeRec).source = Source.nltk ↔
      (true = true ∧ (⟨"make", "makes", 0, Source.nltk⟩ : ChangeRec).new ∈
        getNltkSynonymsL (mkRat 4 5)
          (lowerString (⟨"make", "makes", 0, Source.nltk⟩ : ChangeRec).original)
          ((fun w => if w = "make" then ["makes"] else [])
            (lowerString (⟨"make", "makes", 0, Source.nltk⟩ : ChangeRec).original))) :=
  c7_source_tag [("make", ["makes"])] true (mkRat 4 5)
    (fun w => if w = "make" then ["makes"] else []) "make" 1 [0]
    (["makes"], [⟨"make", "makes", 0, Source.nltk⟩]) (by decide)
    ⟨"make", "makes", 0, Source.nltk⟩ (by decide)

/-- The paraphraser state the operations can see: the in-memory synonym map
(self.synonyms), the newly-added delta (hayi.py), and the contents of the
persisted knowledge file. -/
structure AppState where
  synonyms : SynMap
  delta : SynMap
  stored : Option SynMap
deriving DecidableEq

/-- hayi.py lines 127-163 as a state transformer: each variation pass reads
st.synonyms; the method body assigns neither self.synonyms nor the file
(_save_knowledge is never called from paraphrase), so the state is passed
through each iteration unchanged. -/
def hayiParaphraseOp (useNltk : Bool) (conf : ℚ) (db : String → List String)
    (words : List String) :
    AppState → Nat → List Nat → List (List String × List ChangeRec) × AppState
  | st, 0, _ => ([], st)
  | st, n + 1, rnd =>
    let r := hayiVariationGo st.synonyms useNltk conf db words ([], [], rnd)
    let rest := hayiParaphraseOp useNltk conf db words st n r.2.2
    ((r.1, r.2.1) :: rest.1, rest.2)

/-- hayi.py paraphrase entry point over a text, as a state transformer. -/
def hayiParaphraseCall (useNltk : Bool) (conf : ℚ) (db : String → List String)
    (st : AppState) (text : String) (n : Nat) (rnd : List Nat) :
    List (List String × List ChangeRec) × AppState :=
  hayiParaphraseOp useNltk conf db (tokenize text) st n rnd

/-- para.py lines 122-157 as a state transformer. -/
def paraParaphraseOp (words : List String) :
    AppState → Nat → List Bool → List Nat → List (List String) × AppState
  | st, 0, _, _ => ([], st)
  | st, n + 1, gates, choices =>
    let r := paraVariationGo st.synonyms words ([], gates, choices)
    let rest := paraParaphraseOp words st n r.2.1 r.2.2
    (r.1 :: rest.1, rest.2)

/-- para.py paraphrase entry point over a text, as a state transformer. -/
def paraParaphraseCall (st : AppState) (text : String) (n : Nat)
    (gates : List Bool) (choices : List Nat) : List (List String) × AppState :=
  paraParaphraseOp (tokenize text) st n gates choices

theorem hayiOp_state (useNltk : Bool) (conf : ℚ) (db : String → List String)
    (words : List String) (st : AppState) :
    ∀ (n : Nat) (rnd : List Nat),
      (hayiParaphraseOp useNltk conf db words st n rnd).2 = st ∧
      (hayiParaphraseOp useNltk conf db words st n rnd).1 =
        hayiParaphraseTokens st.synonyms useNltk conf db words n rnd := by
  intro n
  induction n with
  | zero => intro rnd; exact ⟨rfl, rfl⟩
  | succ k ih =>
    intro rnd
    constructor
    · simp only [hayiParaphraseOp]
      exact (ih _).1
    · simp only [hayiParaphraseOp, hayiParaphraseTokens]
      rw [(ih _).2]

theorem paraOp_state (words : List String) (st : AppState) :
    ∀ (n : Nat) (gates : List Bool) (choices : List Nat),
      (paraParaphraseOp words st n gates choices).2 = st ∧
      (paraParaphraseOp words st n gates choices).1 =
        paraParaphraseTokens st.synonyms words n gates choices := by
  intro n
  induction n with
  | zero => intro gates choices; exact ⟨rfl, rfl⟩
  | succ k ih =>
    intro gates choices
    constructor
    · simp only [paraParaphraseOp]
      exact (ih _ _).1
    · simp only [paraParaphraseOp, paraParaphraseTokens]
      rw [(ih _ _).2]

/-- C10: paraphrase never mutates the knowledge store in either variant:
the state (synonym map, newly-added delta, persisted file contents) after
the call is the state before it, no file write occurs, and the produced
variations are exactly those computed by reading the map. -/
theorem c10_paraphrase_pure :
    (∀ (useNltk : Bool) (conf : ℚ) (db : String → List String) (st : AppState)
      (text : String) (n : Nat) (rnd : List Nat),
      (hayiParaphraseCall useNltk conf db st text n rnd).2 = st ∧
      (hayiParaphraseCall useNltk conf db st text n rnd).1 =
        hayiParaphraseTokens st.synonyms useNltk conf db (tokenize text) n rnd) ∧
    (∀ (st : AppState) (text : String) (n : Nat) (gates : List Bool)
      (choices : List Nat),
      (paraParaphraseCall st text n gates choices).2 = st ∧
      (paraParaphraseCall st text n gates choices).1 =
        paraParaphraseTokens st.synonyms (tokenize text) n gates choices) := by
  constructor
  · intro useNltk conf db st text n rnd
    exact hayiOp_state useNltk conf db (tokenize text) st n rnd
  · intro st text n gates choices
    exact paraOp_state (tokenize text) st n gates choices
